import Mathlib

/-!
Verification of the foreign-call resolver in `src/main.rs` of the
`noir-rust-oracle` repository.

The repository's code is a JSON-RPC method `resolve_foreign_call` that
dispatches on a request's `function` tag and, for `"getSqrt"`, computes a
square root in the BN254 scalar field `F_r` using the arkworks library
(`ark_bn254::Fr`, `ark_ff`).  We shallowly embed:

* the field modulus `r` and modular exponentiation (`powMod`);
* `ark_ff`'s `FromStr for Fp` decimal parser (`fromStrFr`);
* `ark_ff`'s `legendre` (Euler's criterion) and its Tonelli–Shanks
  square root (`SqrtPrecomputation::TonelliShanks`, here `frSqrt`),
  instantiated with the `ark_bn254::Fr` constants (`TWO_ADICITY = 28`,
  generator `5`, `TWO_ADIC_ROOT_OF_UNITY = 5 ^ trace`);
* `ark_ff`'s decimal printing of a `BigInt` (`toDecimal`);
* the repository's `handle_get_sqrt`, `handle_unknown_function` and the
  body of the `resolve_foreign_call` closure.

Rust panics (index out of bounds, `unwrap`/`expect` on an error,
`assert_eq!` failure, `panic!`) are modelled by `Option.none`: a handler
that panics produces no result string for the current RPC.
-/

set_option maxRecDepth 100000
set_option exponentiation.threshold 512
set_option maxHeartbeats 1000000

namespace Oracle

/-- BN254 scalar field modulus `r`, the order of `ark_bn254::Fr`
(`MODULUS` in `ark_bn254`). -/
def r : Nat :=
  21888242871839275222246405745257275088548364400416034343698204186575808495617

/-- Fuel-driven square-and-multiply: `powModFuel fuel b e m = b ^ e % m`
whenever `e < 2 ^ fuel`.  This is the executable form of the modular
exponentiation `pow` that `ark_ff` uses for Euler's criterion and inside
Tonelli–Shanks. -/
def powModFuel : Nat → Nat → Nat → Nat → Nat
  | 0, _, _, m => 1 % m
  | fuel + 1, b, e, m =>
    if e = 0 then 1 % m
    else if e % 2 = 1 then b % m * powModFuel fuel (b * b % m) (e / 2) m % m
    else powModFuel fuel (b * b % m) (e / 2) m

/-- Modular exponentiation with enough fuel for any exponent below `2 ^ 320`;
every exponent occurring in this development is below `r < 2 ^ 254`. -/
def powMod (b e m : Nat) : Nat := powModFuel 320 b e m

/-- Loop of `ark_ff`'s `FromStr for Fp` (decimal digits folded into the
field, `res = res * 10 + digit` with field arithmetic, i.e. mod `r`):
`first` records whether we are at the first character, which must not be
`'0'`; any non-decimal-digit character is a parse error (`Err`). -/
def fromStrGo : List Char → Bool → Nat → Option Nat
  | [], _, acc => some acc
  | c :: cs, first, acc =>
    if c.isDigit then
      if first ∧ c = '0' then none
      else fromStrGo cs false ((acc * 10 + (c.toNat - 48)) % r)
    else none

/-- Model of `ark_ff`'s `FromStr for Fp` (used as `Fr::from_str` at
`main.rs` line 116): rejects the empty string, accepts `"0"`, rejects a
leading `'0'` otherwise, rejects non-digit characters, and reduces the
decimal value modulo `r`.  The emptiness and `"0"` tests are phrased on
the character list of the string. -/
def fromStrFr (s : String) : Option Nat :=
  if s.toList = [] then none
  else if s.toList = ['0'] then some 0
  else fromStrGo s.toList true 0

/-- The `LegendreSymbol` enum of `ark_ff`. -/
inductive LegendreSymbol
  | Zero
  | QuadraticResidue
  | QuadraticNonResidue
  deriving DecidableEq

/-- The `is_qr` test of `ark_ff`'s `LegendreSymbol`, used at
`main.rs` line 122. -/
def LegendreSymbol.is_qr : LegendreSymbol → Bool
  | .QuadraticResidue => true
  | _ => false

/-- Model of `ark_ff`'s `legendre()` (Euler's criterion):
`s = x ^ ((r - 1) / 2)`; `Zero` if `s = 0`, `QuadraticResidue` if
`s = 1`, otherwise `QuadraticNonResidue`. -/
def legendre (x : Nat) : LegendreSymbol :=
  let s := powMod x ((r - 1) / 2) r
  if s = 0 then .Zero
  else if s = 1 then .QuadraticResidue
  else .QuadraticNonResidue

/-- Modelled from the spec: `is_square(x)` via Euler's criterion
(§4.1 of the spec: `x ^ ((r − 1) / 2) ∈ {0, 1}` means square; in
particular `0` is a square). -/
def is_square (x : Nat) : Bool :=
  powMod x ((r - 1) / 2) r = 0 || powMod x ((r - 1) / 2) r = 1

/-- The `TWO_ADICITY` constant of `ark_bn254::Fr`: `r - 1 = 2 ^ 28 * trace`
with `trace` odd. -/
def two_adicity : Nat := 28

/-- The odd part `trace` of `r - 1` (`TRACE` in `ark_ff`;
`trace_of_modulus_minus_one_div_two` is `(trace - 1) / 2`). -/
def trace : Nat := (r - 1) / 2 ^ two_adicity

/-- The `TWO_ADIC_ROOT_OF_UNITY` of `ark_bn254::Fr`: the generator `5`
raised to the odd part `trace`; a generator of the 2-Sylow subgroup of
the multiplicative group. -/
def twoAdicRootOfUnity : Nat := powMod 5 trace r

/-- Inner loop of the arkworks Tonelli–Shanks: repeatedly square `b2k`
until it reaches `1`, counting the number `k` of squarings.  The Rust
loop has no bound (it relies on orders dividing `2 ^ 28`); fuel
exhaustion models non-termination, i.e. a request that never returns. -/
def findK : Nat → Nat → Nat → Option Nat
  | 0, _, _ => none
  | fuel + 1, b2k, k => if b2k = 1 then some k else findK fuel (b2k * b2k % r) (k + 1)

/-- Repeated squaring `for _ in 1..j { w.square_in_place() }`:
`sqTimes n w` squares `w` exactly `n` times (mod `r`). -/
def sqTimes : Nat → Nat → Nat
  | 0, w => w
  | n + 1, w => sqTimes n (w * w % r)

/-- Outer `while !b.is_one()` loop of the arkworks Tonelli–Shanks
(`SqrtPrecomputation::TonelliShanks`).  State: candidate root `x`,
residue tracker `b`, 2-power root `z`, exponent `v`.  Each iteration
finds the least `k` with `b ^ (2 ^ k) = 1`, gives up (`None`) when
`k = two_adicity`, and otherwise updates the state.  Fuel exhaustion
models a Rust execution that never leaves the loop. -/
def tsLoop : Nat → Nat → Nat → Nat → Nat → Option Nat
  | 0, _, _, _, _ => none
  | fuel + 1, x, b, z, v =>
    if b = 1 then some x
    else
      match findK (two_adicity + 1) b 0 with
      | none => none
      | some k =>
        if k = two_adicity then none
        else
          let w := sqTimes (v - k - 1) z
          let z2 := w * w % r
          tsLoop fuel (x * w % r) (b * z2 % r) z2 k

/-- Model of `ark_ff`'s `Fp::sqrt` for `ark_bn254::Fr`
(Tonelli–Shanks): `0` maps to `Some(0)`; otherwise set
`x = elem ^ ((trace - 1) / 2)`, `b = x ^ 2 * elem = elem ^ trace`,
`x = x * elem = elem ^ ((trace + 1) / 2)`, run the loop, and return the
result only if it actually squares to `elem`. -/
def frSqrt (elem : Nat) : Option Nat :=
  if elem = 0 then some 0
  else
    match tsLoop (two_adicity + 1) (powMod elem ((trace - 1) / 2) r * elem % r)
        (powMod elem ((trace - 1) / 2) r * powMod elem ((trace - 1) / 2) r % r * elem % r)
        twoAdicRootOfUnity two_adicity with
    | none => none
    | some x => if x * x % r = elem then some x else none

/-- Decimal digit character for `d < 10`. -/
def digitChar (d : Nat) : Char := Char.ofNat (48 + d)

/-- Big-endian decimal digits of `n` (correct for `n < 10 ^ fuel`).
Models `ark_ff`'s decimal `Display` of a `BigInt`. -/
def natToDigits : Nat → Nat → List Char
  | 0, _ => []
  | fuel + 1, n =>
    if n < 10 then [digitChar n]
    else natToDigits fuel (n / 10) ++ [digitChar (n % 10)]

/-- Model of `sqrt.into_bigint().to_string()` at `main.rs` line 142:
canonical decimal representation (no leading zeros; `"0"` for zero).
`80` digits of fuel suffice for any value below `r < 10 ^ 78`. -/
def toDecimal (n : Nat) : String := String.mk (natToDigits 80 n)

/-- Fold of decimal digit characters into a natural number. -/
def parseDecGo : List Char → Nat → Nat
  | [], acc => acc
  | c :: cs, acc => parseDecGo cs (acc * 10 + (c.toNat - 48))

/-- The integer denoted by a decimal string (used to state what the
handler's output string means). -/
def parseDec (s : String) : Nat := parseDecGo s.toList 0

/-- Lines 111–116 of `main.rs`: read `inputs[0]` (a missing element is an
index panic), strip all leading `'0'` characters
(`trim_start_matches('0')`), and parse with `Fr::from_str(..).unwrap()`
(a parse error is an `unwrap` panic). -/
def operandOf (inputs : List String) : Option Nat :=
  match inputs.head? with
  | none => none
  | some s0 => fromStrFr (String.mk (s0.toList.dropWhile (· == '0')))

/-- The `handle_get_sqrt` function of `main.rs` (lines 110–143).  After
parsing the operand `x`: if `x.legendre().is_qr()` then compute
`x.sqrt().unwrap()` (an `unwrap` panic if `None`), check the assertion
`sqrt.square() == x` (an `assert_eq!` panic if it fails) and return the
decimal string; otherwise check `assert_eq!(x.sqrt(), None)` (a panic if
`sqrt` is `Some`) and then `panic!("division by zero")`. -/
def handle_get_sqrt (inputs : List String) : Option String :=
  match operandOf inputs with
  | none => none
  | some x =>
    if (legendre x).is_qr then
      match frSqrt x with
      | none => none
      | some y => if y * y % r = x then some (toDecimal y) else none
    else
      match frSqrt x with
      | some _ => none
      | none => none

/-- The `RequestData` record of `main.rs` (lines 100–107). -/
structure RequestData where
  session_id : Nat
  function : String
  inputs : List String
  root_path : String
  package_name : String
  deriving DecidableEq

/-- The `handle_unknown_function` function of `main.rs` (lines 145–148):
returns the sentinel string `"oops"` whatever the request contains. -/
def handle_unknown_function (_input : RequestData) : String := "oops"

/-- Shape of the `resolve_foreign_call` parameters as seen through the
two external library calls at `main.rs` lines 163–166:
`params.as_str()` either yields no string (`notAString`) or a raw string;
`serde_json::from_str::<Requests>` on that raw string either fails
(`badJson`) or yields the decoded list of requests (`decoded`). -/
inductive ParamShape
  | notAString
  | badJson (raw : String)
  | decoded (reqs : List RequestData)
  deriving DecidableEq

/-- Body of the `resolve_foreign_call` closure (`main.rs` lines
158–187): with no parameter string the result is `"Bad query"`; a
`serde_json` decode failure hits `.expect("Failed to parse JSON")`, a
panic; then `&requests.0[0]` panics on an empty list; otherwise dispatch
on the first request's `function` field. -/
def resolve_foreign_call : ParamShape → Option String
  | .notAString => some "Bad query"
  | .badJson _ => none
  | .decoded reqs =>
    match reqs.head? with
    | none => none
    | some request =>
      if request.function = "getSqrt" then handle_get_sqrt request.inputs
      else some (handle_unknown_function request)

end Oracle

namespace Oracle

/-! ### Correctness of the modular exponentiation -/

theorem powModFuel_lt (fuel b e m : Nat) (hm : 0 < m) : powModFuel fuel b e m < m := by
  induction fuel generalizing b e with
  | zero => exact Nat.mod_lt _ hm
  | succ fuel ih =>
    simp only [powModFuel]
    split
    · exact Nat.mod_lt _ hm
    · split
      · exact Nat.mod_lt _ hm
      · exact ih _ _

theorem powModFuel_eq (fuel b e m : Nat) (he : e < 2 ^ fuel) :
    powModFuel fuel b e m = b ^ e % m := by
  induction fuel generalizing b e with
  | zero =>
    have h0 : e = 0 := by simpa using Nat.lt_one_iff.mp (by simpa using he)
    subst h0
    simp [powModFuel]
  | succ fuel ih =>
    by_cases h0 : e = 0
    · subst h0; simp [powModFuel]
    · have hdiv : e / 2 < 2 ^ fuel := by
        rw [pow_succ] at he
        omega
      have hrec := ih (b * b % m) (e / 2) hdiv
      have hbb : (b * b % m) ^ (e / 2) % m = (b * b) ^ (e / 2) % m := by
        rw [← Nat.pow_mod]
      have hpow : (b * b) ^ (e / 2) = b ^ (2 * (e / 2)) := by
        rw [two_mul, pow_add, ← mul_pow]
      by_cases h1 : e % 2 = 1
      · have hsplit : 2 * (e / 2) + 1 = e := by omega
        simp only [powModFuel, h0, if_false, h1, if_true]
        rw [hrec, hbb, hpow, ← Nat.mul_mod, ← pow_succ', hsplit]
      · have hsplit : 2 * (e / 2) = e := by omega
        simp only [powModFuel, h0, if_false, h1, if_true]
        rw [hrec, hbb, hpow, hsplit]

theorem powMod_eq (b e m : Nat) (he : e < 2 ^ 320) : powMod b e m = b ^ e % m :=
  powModFuel_eq 320 b e m he

theorem powMod_lt (b e m : Nat) (hm : 0 < m) : powMod b e m < m :=
  powModFuel_lt 320 b e m hm

theorem cast_powMod (n a e : Nat) (he : e < 2 ^ 320) :
    ((powMod a e n : Nat) : ZMod n) = (a : ZMod n) ^ e := by
  rw [powMod_eq a e n he, ZMod.natCast_mod, Nat.cast_pow]

theorem powMod_eq_one_iff (n a e : Nat) (hn : 1 < n) (he : e < 2 ^ 320) :
    powMod a e n = 1 ↔ (a : ZMod n) ^ e = 1 := by
  haveI : Fact (1 < n) := ⟨hn⟩
  constructor
  · intro h
    rw [← cast_powMod n a e he, h, Nat.cast_one]
  · intro h
    have h1 : ((powMod a e n : Nat) : ZMod n) = 1 := by rw [cast_powMod n a e he, h]
    have h2 : ((powMod a e n : Nat) : ZMod n).val = (1 : ZMod n).val := by rw [h1]
    rw [ZMod.val_one, ZMod.val_cast_of_lt (powMod_lt a e n (by omega))] at h2
    exact h2

/-! ### Primality of the modulus via Lucas / Pratt certificates -/

theorem prime_dvd_of_prodPow {q : Nat} (hq : q.Prime) :
    ∀ L : List (Nat × Nat), (∀ qe ∈ L, Nat.Prime qe.1) →
      q ∣ (L.map fun qe => qe.1 ^ qe.2).prod → ∃ qe ∈ L, q = qe.1 := by
  intro L
  induction L with
  | nil =>
    intro _ hdvd
    simp only [List.map_nil, List.prod_nil, Nat.dvd_one] at hdvd
    exact absurd hdvd hq.ne_one
  | cons qe L ih =>
    intro hL hdvd
    simp only [List.map_cons, List.prod_cons] at hdvd
    rcases (Nat.Prime.dvd_mul hq).mp hdvd with h | h
    · have hqq : q ∣ qe.1 := hq.dvd_of_dvd_pow h
      have heq : q = qe.1 :=
        (Nat.prime_dvd_prime_iff_eq hq (hL qe (List.mem_cons_self _ _))).mp hqq
      exact ⟨qe, List.mem_cons_self _ _, heq⟩
    · obtain ⟨qe1, hmem, heq⟩ := ih (fun x hx => hL x (List.mem_cons_of_mem _ hx)) h
      exact ⟨qe1, List.mem_cons_of_mem _ hmem, heq⟩

theorem prime_of_cert (p a : Nat) (L : List (Nat × Nat))
    (hp2 : 2 ≤ p) (hsize : p < 2 ^ 320)
    (hL : ∀ qe ∈ L, Nat.Prime qe.1)
    (hprod : (L.map fun qe => qe.1 ^ qe.2).prod = p - 1)
    (ha : powMod a (p - 1) p = 1)
    (hd : ∀ qe ∈ L, powMod a ((p - 1) / qe.1) p ≠ 1) :
    Nat.Prime p := by
  have hp1 : 1 < p := hp2
  have hcast : ((a : ZMod p)) ^ (p - 1) = 1 :=
    (powMod_eq_one_iff p a (p - 1) hp1 (by omega)).mp ha
  refine lucas_primality p (a : ZMod p) hcast ?_
  intro q hq hqdvd
  rw [← hprod] at hqdvd
  obtain ⟨qe, hmem, heq⟩ := prime_dvd_of_prodPow hq L hL hqdvd
  intro hone
  refine hd qe hmem ?_
  refine (powMod_eq_one_iff p a ((p - 1) / qe.1) hp1
    (lt_of_le_of_lt (Nat.div_le_self _ _) (by omega))).mpr ?_
  rw [← heq]
  exact hone

theorem prime_405928799 : Nat.Prime 405928799 := by
  refine prime_of_cert 405928799 22 [(2, 1), (11, 1), (3691, 1), (4999, 1)]
    (by norm_num) (by norm_num) ?_ (by decide) (by decide) (by decide)
  intro qe h
  simp only [List.mem_cons, List.not_mem_nil, or_false] at h
  rcases h with rfl | rfl | rfl | rfl <;> norm_num

theorem prime_639533339 : Nat.Prime 639533339 := by
  refine prime_of_cert 639533339 2 [(2, 1), (229, 1), (853, 1), (1637, 1)]
    (by norm_num) (by norm_num) ?_ (by decide) (by decide) (by decide)
  intro qe h
  simp only [List.mem_cons, List.not_mem_nil, or_false] at h
  rcases h with rfl | rfl | rfl | rfl <;> norm_num

theorem prime_12048837557 : Nat.Prime 12048837557 := by
  refine prime_of_cert 12048837557 2 [(2, 2), (7, 2), (661, 1), (93001, 1)]
    (by norm_num) (by norm_num) ?_ (by decide) (by decide) (by decide)
  intro qe h
  simp only [List.mem_cons, List.not_mem_nil, or_false] at h
  rcases h with rfl | rfl | rfl | rfl <;> norm_num

theorem prime_5156902474397 : Nat.Prime 5156902474397 := by
  refine prime_of_cert 5156902474397 2 [(2, 2), (107, 1), (12048837557, 1)]
    (by norm_num) (by norm_num) ?_ (by decide) (by decide) (by decide)
  intro qe h
  simp only [List.mem_cons, List.not_mem_nil, or_false] at h
  rcases h with rfl | rfl | rfl | rfl <;> first | exact prime_12048837557 | norm_num

theorem prime_1670836401704629 : Nat.Prime 1670836401704629 := by
  refine prime_of_cert 1670836401704629 2 [(2, 2), (3, 4), (5156902474397, 1)]
    (by norm_num) (by norm_num) ?_ (by decide) (by decide) (by decide)
  intro qe h
  simp only [List.mem_cons, List.not_mem_nil, or_false] at h
  rcases h with rfl | rfl | rfl <;> first | exact prime_5156902474397 | norm_num

theorem prime_65865678001877903 : Nat.Prime 65865678001877903 := by
  refine prime_of_cert 65865678001877903 5 [(2, 1), (83, 1), (379, 1), (1637, 1), (639533339, 1)]
    (by norm_num) (by norm_num) ?_ (by decide) (by decide) (by decide)
  intro qe h
  simp only [List.mem_cons, List.not_mem_nil, or_false] at h
  rcases h with rfl | rfl | rfl | rfl | rfl <;> first | exact prime_639533339 | norm_num

theorem prime_13818364434197438864469338081 : Nat.Prime 13818364434197438864469338081 := by
  refine prime_of_cert 13818364434197438864469338081 3
    [(2, 5), (5, 1), (823, 1), (1593227, 1), (65865678001877903, 1)]
    (by norm_num) (by norm_num) ?_ (by decide) (by decide) (by decide)
  intro qe h
  simp only [List.mem_cons, List.not_mem_nil, or_false] at h
  rcases h with rfl | rfl | rfl | rfl | rfl <;> first | exact prime_65865678001877903 | norm_num

/-- Primality of the BN254 scalar field modulus, by a Pratt certificate
with primitive root `5`. -/
theorem r_prime : Nat.Prime r := by
  refine prime_of_cert r 5
    [(2, 28), (3, 2), (13, 1), (29, 1), (983, 1), (11003, 1), (237073, 1), (405928799, 1),
      (1670836401704629, 1), (13818364434197438864469338081, 1)]
    (by decide) (by decide) ?_ (by decide) (by decide) (by decide)
  intro qe h
  simp only [List.mem_cons, List.not_mem_nil, or_false] at h
  rcases h with rfl | rfl | rfl | rfl | rfl | rfl | rfl | rfl | rfl | rfl <;>
    first
      | exact prime_405928799
      | exact prime_1670836401704629
      | exact prime_13818364434197438864469338081
      | norm_num

instance : Fact (Nat.Prime r) := ⟨r_prime⟩

instance : NeZero r := ⟨by decide⟩

instance : Fact (1 < r) := ⟨by decide⟩

/-! ### Transfer between the executable `Nat` code and `ZMod r` -/

theorem r_pos : 0 < r := by decide

theorem r_gt_one : 1 < r := by decide

theorem half_lt : (r - 1) / 2 < 2 ^ 320 := by decide

theorem trace_mul_pow : trace * 2 ^ 27 = (r - 1) / 2 := by decide

theorem trace_odd : 2 * ((trace - 1) / 2) = trace - 1 := by decide

theorem trace_pos : 0 < trace := by decide

theorem cast_mulmod (a b : Nat) : ((a * b % r : Nat) : ZMod r) = (a : ZMod r) * (b : ZMod r) := by
  rw [ZMod.natCast_mod, Nat.cast_mul]

theorem eq_one_iff_cast (b : Nat) (hb : b < r) : b = 1 ↔ (b : ZMod r) = 1 := by
  constructor
  · rintro rfl
    exact Nat.cast_one
  · intro h
    have hv := congrArg ZMod.val h
    rwa [ZMod.val_cast_of_lt hb, ZMod.val_one] at hv

theorem cast_inj_of_lt {a b : Nat} (ha : a < r) (hb : b < r)
    (h : (a : ZMod r) = (b : ZMod r)) : a = b := by
  have hv := congrArg ZMod.val h
  rwa [ZMod.val_cast_of_lt ha, ZMod.val_cast_of_lt hb] at hv

theorem cast_r_sub_one : ((r - 1 : Nat) : ZMod r) = -1 := by
  rw [Nat.cast_sub (by decide : 1 ≤ r), ZMod.natCast_self, Nat.cast_one, zero_sub]

/-- The generator `5` of `ark_bn254::Fr` is a quadratic non-residue:
`5 ^ ((r - 1) / 2) = -1` in the field (established by kernel computation). -/
theorem gen_pow_half : ((5 : Nat) : ZMod r) ^ ((r - 1) / 2) = -1 := by
  have h : powMod 5 ((r - 1) / 2) r = r - 1 := by decide
  calc ((5 : Nat) : ZMod r) ^ ((r - 1) / 2)
      = ((powMod 5 ((r - 1) / 2) r : Nat) : ZMod r) := (cast_powMod r 5 _ half_lt).symm
    _ = ((r - 1 : Nat) : ZMod r) := by rw [h]
    _ = -1 := cast_r_sub_one

theorem twoAdicRootOfUnity_lt : twoAdicRootOfUnity < r :=
  powMod_lt 5 trace r r_pos

theorem cast_twoAdicRootOfUnity :
    ((twoAdicRootOfUnity : Nat) : ZMod r) = ((5 : Nat) : ZMod r) ^ trace := by
  rw [twoAdicRootOfUnity]
  exact cast_powMod r 5 trace (by decide)

theorem twoAdicRootOfUnity_pow : ((twoAdicRootOfUnity : Nat) : ZMod r) ^ 2 ^ 27 = -1 := by
  rw [cast_twoAdicRootOfUnity, ← pow_mul, trace_mul_pow, gen_pow_half]

/-! ### The inner loops of Tonelli–Shanks -/

theorem sqTimes_lt (n : Nat) : ∀ w : Nat, w < r → sqTimes n w < r := by
  induction n with
  | zero => intro w hw; exact hw
  | succ n ih =>
    intro w _
    exact ih (w * w % r) (Nat.mod_lt _ r_pos)

theorem cast_sqTimes (n : Nat) : ∀ w : Nat,
    ((sqTimes n w : Nat) : ZMod r) = (w : ZMod r) ^ 2 ^ n := by
  induction n with
  | zero => intro w; simp [sqTimes]
  | succ n ih =>
    intro w
    have h := ih (w * w % r)
    rw [sqTimes, h, cast_mulmod, ← sq, ← pow_mul, pow_succ, mul_comm 2 (2 ^ n)]

theorem findK_eq (j : Nat) : ∀ (fuel b k0 : Nat), b < r →
    (b : ZMod r) ^ 2 ^ j = 1 → (∀ i < j, (b : ZMod r) ^ 2 ^ i ≠ 1) → j < fuel →
    findK fuel b k0 = some (k0 + j) := by
  induction j with
  | zero =>
    intro fuel b k0 hb h1 _ hfuel
    obtain ⟨f, rfl⟩ : ∃ f, fuel = f + 1 := ⟨fuel - 1, by omega⟩
    have hb1 : b = 1 := (eq_one_iff_cast b hb).mpr (by simpa using h1)
    simp [findK, hb1]
  | succ j ih =>
    intro fuel b k0 hb h1 hmin hfuel
    obtain ⟨f, rfl⟩ : ∃ f, fuel = f + 1 := ⟨fuel - 1, by omega⟩
    have hbne : b ≠ 1 := by
      intro hb1
      exact hmin 0 (Nat.succ_pos j) (by simp [hb1])
    rw [findK, if_neg hbne]
    have hlt : b * b % r < r := Nat.mod_lt _ r_pos
    have hcast : ((b * b % r : Nat) : ZMod r) = (b : ZMod r) ^ 2 := by
      rw [cast_mulmod, sq]
    have hexp : ∀ i : Nat, ((b * b % r : Nat) : ZMod r) ^ 2 ^ i = (b : ZMod r) ^ 2 ^ (i + 1) := by
      intro i
      rw [hcast, ← pow_mul, pow_succ, mul_comm 2 (2 ^ i)]
    have h1' : ((b * b % r : Nat) : ZMod r) ^ 2 ^ j = 1 := by rw [hexp j]; exact h1
    have hmin' : ∀ i < j, ((b * b % r : Nat) : ZMod r) ^ 2 ^ i ≠ 1 := by
      intro i hi
      rw [hexp i]
      exact hmin (i + 1) (by omega)
    have hrec := ih f (b * b % r) (k0 + 1) hlt h1' hmin' (by omega)
    rw [hrec]
    congr 1
    omega

/-! ### Correctness of the Tonelli–Shanks outer loop -/

/-- Main loop invariant: if `x ^ 2 = elem * b`, `z` has order exactly
`2 ^ v` (witnessed by `z ^ 2 ^ (v-1) = -1`) and the order of `b` divides
`2 ^ (v-1)`, then the loop succeeds and returns a square root of `elem`. -/
theorem tsLoop_spec : ∀ (fuel x b z v : Nat) (elem : ZMod r),
    x < r → b < r → z < r →
    1 ≤ v → v ≤ two_adicity → v < fuel →
    (x : ZMod r) ^ 2 = elem * (b : ZMod r) →
    (z : ZMod r) ^ 2 ^ (v - 1) = -1 →
    (b : ZMod r) ^ 2 ^ (v - 1) = 1 →
    ∃ y, tsLoop fuel x b z v = some y ∧ y < r ∧ (y : ZMod r) ^ 2 = elem := by
  intro fuel
  induction fuel with
  | zero =>
    intro x b z v elem _ _ _ _ _ hvf _ _ _
    omega
  | succ fuel ih =>
    intro x b z v elem hx hb hz hv1 hv28 hvf hinv hzpow hbpow
    by_cases hb1 : b = 1
    · refine ⟨x, ?_, hx, ?_⟩
      · simp [tsLoop, hb1]
      · rw [hinv, hb1, Nat.cast_one, mul_one]
    · have hBne : (b : ZMod r) ≠ 1 := fun h => hb1 ((eq_one_iff_cast b hb).mpr h)
      have hex : ∃ i, (b : ZMod r) ^ 2 ^ i = 1 := ⟨v - 1, hbpow⟩
      have hj1 : (b : ZMod r) ^ 2 ^ Nat.find hex = 1 := Nat.find_spec hex
      have hjmin : ∀ i < Nat.find hex, (b : ZMod r) ^ 2 ^ i ≠ 1 :=
        fun i hi => Nat.find_min hex hi
      have hj_le : Nat.find hex ≤ v - 1 := Nat.find_min' hex hbpow
      have hjpos : 1 ≤ Nat.find hex := by
        rcases Nat.eq_zero_or_pos (Nat.find hex) with h0 | h1
        · exfalso
          apply hBne
          have hone := hj1
          rw [h0, pow_zero, pow_one] at hone
          exact hone
        · exact h1
      set j := Nat.find hex with hjdef
      have hjlt : j < v := by omega
      have hfind : findK (two_adicity + 1) b 0 = some j := by
        have h := findK_eq j (two_adicity + 1) b 0 hb hj1 hjmin
          (by simp only [two_adicity] at hv28 ⊢; omega)
        simpa using h
      have hjne : j ≠ two_adicity := by
        simp only [two_adicity] at hv28 ⊢
        omega
      -- facts about the updated state
      have hw_lt : sqTimes (v - j - 1) z < r := sqTimes_lt _ z hz
      have hWcast : ((sqTimes (v - j - 1) z : Nat) : ZMod r) = (z : ZMod r) ^ 2 ^ (v - j - 1) :=
        cast_sqTimes _ z
      have hz2_lt : sqTimes (v - j - 1) z * sqTimes (v - j - 1) z % r < r := Nat.mod_lt _ r_pos
      have hZ2cast : ((sqTimes (v - j - 1) z * sqTimes (v - j - 1) z % r : Nat) : ZMod r)
          = (z : ZMod r) ^ 2 ^ (v - j) := by
        rw [cast_mulmod, hWcast, ← pow_add]
        congr 1
        calc 2 ^ (v - j - 1) + 2 ^ (v - j - 1)
            = 2 * 2 ^ (v - j - 1) := (two_mul _).symm
          _ = 2 ^ (v - j - 1 + 1) := (pow_succ' 2 _).symm
          _ = 2 ^ (v - j) := by congr 1; omega
      have hBj_sq : ((b : ZMod r) ^ 2 ^ (j - 1)) ^ 2 = 1 := by
        rw [← pow_mul]
        have h2j : 2 ^ (j - 1) * 2 = 2 ^ j := by
          rw [← pow_succ]
          congr 1
          omega
        rw [h2j]
        exact hj1
      have hBj : (b : ZMod r) ^ 2 ^ (j - 1) = -1 := by
        rcases sq_eq_one_iff.mp hBj_sq with h | h
        · exact absurd h (hjmin (j - 1) (by omega))
        · exact h
      have hZ2j : ((sqTimes (v - j - 1) z * sqTimes (v - j - 1) z % r : Nat) : ZMod r) ^ 2 ^ (j - 1)
          = -1 := by
        rw [hZ2cast, ← pow_mul]
        have hvj : 2 ^ (v - j) * 2 ^ (j - 1) = 2 ^ (v - 1) := by
          rw [← pow_add]
          congr 1
          omega
        rw [hvj]
        exact hzpow
      have hb'pow : ((b * (sqTimes (v - j - 1) z * sqTimes (v - j - 1) z % r) % r : Nat) : ZMod r)
          ^ 2 ^ (j - 1) = 1 := by
        rw [cast_mulmod, mul_pow, hBj, hZ2j, neg_mul_neg, one_mul]
      have hw2 : ((sqTimes (v - j - 1) z : Nat) : ZMod r) ^ 2
          = ((sqTimes (v - j - 1) z * sqTimes (v - j - 1) z % r : Nat) : ZMod r) := by
        rw [cast_mulmod, sq]
      have hx'inv : ((x * sqTimes (v - j - 1) z % r : Nat) : ZMod r) ^ 2
          = elem * ((b * (sqTimes (v - j - 1) z * sqTimes (v - j - 1) z % r) % r : Nat) : ZMod r) := by
        rw [cast_mulmod, mul_pow, hinv, cast_mulmod, hw2]
        ring
      obtain ⟨y, hy, hylt, hy2⟩ := ih (x * sqTimes (v - j - 1) z % r)
        (b * (sqTimes (v - j - 1) z * sqTimes (v - j - 1) z % r) % r)
        (sqTimes (v - j - 1) z * sqTimes (v - j - 1) z % r) j elem
        (Nat.mod_lt _ r_pos) (Nat.mod_lt _ r_pos) hz2_lt hjpos (by omega) (by omega)
        hx'inv hZ2j hb'pow
      refine ⟨y, ?_, hylt, hy2⟩
      simp only [tsLoop, if_neg hb1, hfind, if_neg hjne]
      exact hy

theorem tsLoop_lt : ∀ (fuel x b z v y : Nat), x < r → tsLoop fuel x b z v = some y → y < r := by
  intro fuel
  induction fuel with
  | zero =>
    intro x b z v y _ h
    exact absurd h (by simp [tsLoop])
  | succ fuel ih =>
    intro x b z v y hx h
    rw [tsLoop] at h
    by_cases hb1 : b = 1
    · rw [if_pos hb1] at h
      injection h with h'
      exact h' ▸ hx
    · rw [if_neg hb1] at h
      cases hfk : findK (two_adicity + 1) b 0 with
      | none =>
        rw [hfk] at h
        exact absurd h (by simp)
      | some k =>
        rw [hfk] at h
        have h2 : (if k = two_adicity then (none : Option Nat)
            else tsLoop fuel (x * sqTimes (v - k - 1) z % r)
              (b * (sqTimes (v - k - 1) z * sqTimes (v - k - 1) z % r) % r)
              (sqTimes (v - k - 1) z * sqTimes (v - k - 1) z % r) k) = some y := h
        by_cases hk : k = two_adicity
        · rw [if_pos hk] at h2
          exact absurd h2 (by simp)
        · rw [if_neg hk] at h2
          exact ih _ _ _ _ y (Nat.mod_lt _ r_pos) h2

theorem frSqrt_lt (x y : Nat) (h : frSqrt x = some y) : y < r := by
  rw [frSqrt] at h
  by_cases h0 : x = 0
  · rw [if_pos h0] at h
    injection h with h'
    exact h' ▸ r_pos
  · rw [if_neg h0] at h
    cases hts : tsLoop (two_adicity + 1) (powMod x ((trace - 1) / 2) r * x % r)
        (powMod x ((trace - 1) / 2) r * powMod x ((trace - 1) / 2) r % r * x % r)
        twoAdicRootOfUnity two_adicity with
    | none =>
      rw [hts] at h
      exact absurd h (by simp)
    | some w =>
      rw [hts] at h
      have h2 : (if w * w % r = x then (some w : Option Nat) else none) = some y := h
      by_cases hw : w * w % r = x
      · rw [if_pos hw] at h2
        injection h2 with h'
        exact h' ▸ tsLoop_lt _ _ _ _ _ w (Nat.mod_lt _ r_pos) hts
      · rw [if_neg hw] at h2
        exact absurd h2 (by simp)

theorem trace_half_lt : (trace - 1) / 2 < 2 ^ 320 := by decide

/-- Completeness of the embedded arkworks square root: on a nonzero
quadratic residue it succeeds, and its output squares back to the input. -/
theorem frSqrt_complete (x : Nat) (hx0 : 0 < x) (hxr : x < r)
    (hsq : ((x : Nat) : ZMod r) ^ ((r - 1) / 2) = 1) :
    ∃ y, frSqrt x = some y ∧ y < r ∧ y * y % r = x := by
  have hodd := trace_odd
  have hpos := trace_pos
  have hX0 : ((powMod x ((trace - 1) / 2) r : Nat) : ZMod r)
      = ((x : Nat) : ZMod r) ^ ((trace - 1) / 2) := cast_powMod r x _ trace_half_lt
  have hX1 : ((powMod x ((trace - 1) / 2) r * x % r : Nat) : ZMod r)
      = ((x : Nat) : ZMod r) ^ ((trace - 1) / 2 + 1) := by
    rw [cast_mulmod, hX0, ← pow_succ]
  have hB0 : ((powMod x ((trace - 1) / 2) r * powMod x ((trace - 1) / 2) r % r * x % r : Nat) :
      ZMod r) = ((x : Nat) : ZMod r) ^ trace := by
    rw [cast_mulmod, cast_mulmod, hX0, ← pow_add, ← pow_succ]
    congr 1
  have hinv : ((powMod x ((trace - 1) / 2) r * x % r : Nat) : ZMod r) ^ 2
      = ((x : Nat) : ZMod r) *
        ((powMod x ((trace - 1) / 2) r * powMod x ((trace - 1) / 2) r % r * x % r : Nat) :
          ZMod r) := by
    rw [hX1, hB0, ← pow_mul, ← pow_succ']
    congr 1
  have hb0pow : ((powMod x ((trace - 1) / 2) r * powMod x ((trace - 1) / 2) r % r * x % r : Nat) :
      ZMod r) ^ 2 ^ (two_adicity - 1) = 1 := by
    rw [hB0, ← pow_mul]
    have hexp : trace * 2 ^ (two_adicity - 1) = (r - 1) / 2 := trace_mul_pow
    rw [hexp]
    exact hsq
  have hzpow : ((twoAdicRootOfUnity : Nat) : ZMod r) ^ 2 ^ (two_adicity - 1) = -1 :=
    twoAdicRootOfUnity_pow
  obtain ⟨y, hy, hylt, hy2⟩ := tsLoop_spec (two_adicity + 1)
    (powMod x ((trace - 1) / 2) r * x % r)
    (powMod x ((trace - 1) / 2) r * powMod x ((trace - 1) / 2) r % r * x % r)
    twoAdicRootOfUnity two_adicity ((x : Nat) : ZMod r)
    (Nat.mod_lt _ r_pos) (Nat.mod_lt _ r_pos) twoAdicRootOfUnity_lt
    (by decide) (le_refl _) (Nat.lt_succ_self _)
    hinv hzpow hb0pow
  have hyy : y * y % r = x := by
    apply cast_inj_of_lt (Nat.mod_lt _ r_pos) hxr
    rw [ZMod.natCast_mod, Nat.cast_mul, ← sq]
    exact hy2
  refine ⟨y, ?_, hylt, hyy⟩
  have hfin : (if y * y % r = x then (some y : Option Nat) else none) = some y := if_pos hyy
  rw [frSqrt, if_neg (by omega : x ≠ 0)]
  simp only [hy]
  exact hfin

/-! ### Bounds on the decimal parser and the Legendre dispatch -/

theorem fromStrGo_lt : ∀ (l : List Char) (first : Bool) (acc v : Nat), acc < r →
    fromStrGo l first acc = some v → v < r := by
  intro l
  induction l with
  | nil =>
    intro first acc v hacc h
    injection h with h'
    exact h' ▸ hacc
  | cons c cs ih =>
    intro first acc v hacc h
    rw [fromStrGo] at h
    split at h
    · split at h
      · exact absurd h (by simp)
      · exact ih false _ v (Nat.mod_lt _ r_pos) h
    · exact absurd h (by simp)

theorem fromStrFr_lt (s : String) (v : Nat) (h : fromStrFr s = some v) : v < r := by
  rw [fromStrFr] at h
  split at h
  · exact absurd h (by simp)
  · split at h
    · injection h with h'
      exact h' ▸ r_pos
    · exact fromStrGo_lt _ true 0 v r_pos h

theorem operandOf_lt (inputs : List String) (x : Nat) (h : operandOf inputs = some x) :
    x < r := by
  rw [operandOf] at h
  cases hh : inputs.head? with
  | none =>
    rw [hh] at h
    exact absurd h (by simp)
  | some s0 =>
    rw [hh] at h
    exact fromStrFr_lt _ x h

/-- On a nonzero reduced operand, the spec's `is_square` forces the code's
Legendre test into the `QuadraticResidue` branch and yields the Euler
identity in the field. -/
theorem legendre_eq_qr (x : Nat) (hx0 : 0 < x) (hxr : x < r) (hsq : is_square x = true) :
    legendre x = LegendreSymbol.QuadraticResidue ∧
      ((x : Nat) : ZMod r) ^ ((r - 1) / 2) = 1 := by
  rw [is_square] at hsq
  simp only [Bool.or_eq_true, decide_eq_true_eq] at hsq
  rcases hsq with h0 | h1
  · exfalso
    have hc : ((x : Nat) : ZMod r) ^ ((r - 1) / 2) = 0 := by
      rw [← cast_powMod r x _ half_lt, h0, Nat.cast_zero]
    have hq0 : (r - 1) / 2 ≠ 0 := by decide
    have hx0' : ((x : Nat) : ZMod r) = 0 := (pow_eq_zero_iff hq0).mp hc
    have hdvd : r ∣ x := (ZMod.natCast_zmod_eq_zero_iff_dvd x r).mp hx0'
    have := Nat.le_of_dvd hx0 hdvd
    omega
  · constructor
    · rw [legendre]
      simp only [h1]
      norm_num
    · rw [← cast_powMod r x _ half_lt, h1, Nat.cast_one]

/-- Conversely, `is_square x = false` forces the `QuadraticNonResidue`
branch. -/
theorem legendre_eq_qnr (x : Nat) (hsq : is_square x = false) :
    legendre x = LegendreSymbol.QuadraticNonResidue := by
  rw [is_square] at hsq
  simp only [Bool.or_eq_false_iff, decide_eq_false_iff_not] at hsq
  simp only [legendre]
  rw [if_neg hsq.1, if_neg hsq.2]

/-! ### Properties of the decimal printer and parser -/

theorem digitChar_toNat (d : Nat) (hd : d < 10) : (digitChar d).toNat = 48 + d := by
  interval_cases d <;> decide

theorem digitChar_ne_zero_char (d : Nat) (h1 : 1 ≤ d) (hd : d < 10) : digitChar d ≠ '0' := by
  interval_cases d <;> decide

theorem natToDigits_ne_nil : ∀ (fuel n : Nat), fuel ≠ 0 → natToDigits fuel n ≠ [] := by
  intro fuel n hf
  obtain ⟨f, rfl⟩ : ∃ f, fuel = f + 1 := ⟨fuel - 1, by omega⟩
  rw [natToDigits]
  split
  · simp
  · simp

theorem natToDigits_head : ∀ (fuel n : Nat), 1 ≤ n → n < 10 ^ fuel →
    ∀ c cs, natToDigits fuel n = c :: cs → c ≠ '0' := by
  intro fuel
  induction fuel with
  | zero =>
    intro n h1 hlt
    omega
  | succ fuel ih =>
    intro n h1 hlt c cs h
    rw [natToDigits] at h
    split at h
    · injection h with hc _
      subst hc
      exact digitChar_ne_zero_char n h1 (by omega)
    · rename_i hge
      have hfuel : fuel ≠ 0 := by
        intro h0
        subst h0
        norm_num at hlt
        omega
      cases hrec : natToDigits fuel (n / 10) with
      | nil => exact absurd hrec (natToDigits_ne_nil fuel (n / 10) hfuel)
      | cons c0 cs0 =>
        rw [hrec, List.cons_append] at h
        injection h with hc _
        subst hc
        have hdiv1 : 1 ≤ n / 10 := by omega
        have hdivlt : n / 10 < 10 ^ fuel := by
          rw [pow_succ] at hlt
          omega
        exact ih (n / 10) hdiv1 hdivlt c0 cs0 hrec

theorem toDecimal_zero : toDecimal 0 = "0" := by decide

theorem toDecimal_head (n : Nat) (h1 : 1 ≤ n) (hlt : n < 10 ^ 80) :
    (toDecimal n).toList.head? ≠ some '0' := by
  rw [toDecimal]
  cases hrec : natToDigits 80 n with
  | nil => exact absurd hrec (natToDigits_ne_nil 80 n (by omega))
  | cons c cs =>
    have hc := natToDigits_head 80 n h1 hlt c cs hrec
    intro hcontra
    have h2 : some c = some '0' := hcontra
    injection h2 with h'
    exact hc h'

theorem parseDecGo_append (l1 l2 : List Char) : ∀ acc : Nat,
    parseDecGo (l1 ++ l2) acc = parseDecGo l2 (parseDecGo l1 acc) := by
  induction l1 with
  | nil => intro acc; rfl
  | cons c cs ih =>
    intro acc
    rw [List.cons_append, parseDecGo, parseDecGo, ih]

theorem parseDecGo_natToDigits : ∀ (fuel n : Nat), n < 10 ^ fuel → ∀ acc : Nat,
    parseDecGo (natToDigits fuel n) acc = acc * 10 ^ (natToDigits fuel n).length + n := by
  intro fuel
  induction fuel with
  | zero =>
    intro n hlt acc
    have h0 : n = 0 := by omega
    subst h0
    simp [natToDigits, parseDecGo]
  | succ fuel ih =>
    intro n hlt acc
    rw [natToDigits]
    split
    · rename_i hn10
      simp only [parseDecGo]
      rw [digitChar_toNat n hn10]
      simp only [List.length_cons, List.length_nil, Nat.zero_add, pow_one]
      omega
    · rename_i hge
      push_neg at hge
      have hdivlt : n / 10 < 10 ^ fuel := by
        rw [pow_succ] at hlt
        omega
      have hlen : (natToDigits fuel (n / 10) ++ [digitChar (n % 10)]).length
          = (natToDigits fuel (n / 10)).length + 1 := by simp
      rw [parseDecGo_append]
      simp only [parseDecGo]
      rw [ih (n / 10) hdivlt acc, digitChar_toNat (n % 10) (by omega), hlen, pow_succ,
        ← mul_assoc]
      generalize acc * 10 ^ (natToDigits fuel (n / 10)).length = A
      omega

theorem parseDec_toDecimal (n : Nat) (hlt : n < 10 ^ 80) : parseDec (toDecimal n) = n := by
  rw [parseDec, toDecimal]
  have h := parseDecGo_natToDigits 80 n hlt 0
  simpa using h

/-! ### The value parsed from a digit string -/

theorem toList_mk (l : List Char) : (String.mk l).toList = l := rfl

theorem mulmod_add_mod (A d : Nat) : (A % r * 10 + d) % r = (A * 10 + d) % r :=
  Nat.ModEq.add_right d (Nat.ModEq.mul_right 10 (Nat.mod_modEq A r))

theorem fromStrGo_digits : ∀ (l : List Char) (A : Nat), (∀ c ∈ l, c.isDigit = true) →
    fromStrGo l false (A % r) = some (parseDecGo l A % r) := by
  intro l
  induction l with
  | nil => intro A _; rfl
  | cons c cs ih =>
    intro A hdig
    rw [fromStrGo, if_pos (hdig c (List.mem_cons_self c cs)),
      if_neg (by simp : ¬((false : Bool) ∧ c = '0')), mulmod_add_mod]
    exact ih (A * 10 + (c.toNat - 48)) fun c' hc' => hdig c' (List.mem_cons_of_mem c hc')

theorem parseDecGo_zeros : ∀ l : List Char, (∀ c ∈ l, c = '0') → parseDecGo l 0 = 0 := by
  intro l
  induction l with
  | nil => intro _; rfl
  | cons c cs ih =>
    intro h
    have hc : c = '0' := h c (List.mem_cons_self c cs)
    rw [parseDecGo, hc]
    exact ih fun c' hc' => h c' (List.mem_cons_of_mem c hc')

theorem parseDec_eq_stripped (w : String) :
    parseDecGo (w.toList.dropWhile (· == '0')) 0 = parseDec w := by
  have hzeros : ∀ c ∈ w.toList.takeWhile (· == '0'), c = '0' := by
    intro c hc
    have := List.mem_takeWhile_imp hc
    simpa using this
  calc parseDecGo (w.toList.dropWhile (· == '0')) 0
      = parseDecGo (w.toList.dropWhile (· == '0'))
          (parseDecGo (w.toList.takeWhile (· == '0')) 0) := by
        rw [parseDecGo_zeros _ hzeros]
    _ = parseDecGo (w.toList.takeWhile (· == '0') ++ w.toList.dropWhile (· == '0')) 0 :=
        (parseDecGo_append _ _ 0).symm
    _ = parseDec w := by rw [List.takeWhile_append_dropWhile, parseDec]

theorem dropWhile_head_not (p : Char → Bool) : ∀ (l : List Char) (c : Char) (cs : List Char),
    l.dropWhile p = c :: cs → p c = false := by
  intro l
  induction l with
  | nil =>
    intro c cs h
    exact absurd h (by simp)
  | cons a l ih =>
    intro c cs h
    rw [List.dropWhile_cons] at h
    split at h
    · exact ih c cs h
    · rename_i hpa
      injection h with h1 _
      subst h1
      simpa using hpa

/-- When the first operand consists of decimal digits and is not all
zeros, the handler's parsed operand is its decimal value reduced mod `r`. -/
theorem operandOf_digits (w : String) (rest : List String)
    (hdig : ∀ c ∈ w.toList, c.isDigit = true)
    (hne : w.toList.dropWhile (· == '0') ≠ []) :
    operandOf (w :: rest) = some (parseDec w % r) := by
  show fromStrFr (String.mk (w.toList.dropWhile (· == '0'))) = some (parseDec w % r)
  obtain ⟨c, cs, hl⟩ : ∃ c cs, w.toList.dropWhile (· == '0') = c :: cs := by
    cases h : w.toList.dropWhile (· == '0') with
    | nil => exact absurd h hne
    | cons c cs => exact ⟨c, cs, rfl⟩
  have hc0 : (c == '0') = false := dropWhile_head_not _ _ c cs hl
  have hc0' : c ≠ '0' := by simpa using hc0
  have hmemdrop : ∀ c' ∈ c :: cs, c' ∈ w.toList := by
    intro c' hc'
    exact (List.dropWhile_sublist (· == '0')).subset (hl ▸ hc')
  have hcdig : c.isDigit = true := hdig c (hmemdrop c (List.mem_cons_self c cs))
  have hdigs : ∀ c' ∈ cs, c'.isDigit = true :=
    fun c' hc' => hdig c' (hmemdrop c' (List.mem_cons_of_mem c hc'))
  rw [fromStrFr, toList_mk, hl, if_neg (by simp : (c :: cs : List Char) ≠ []),
    if_neg (by intro h; injection h with h1 _; exact hc0' h1)]
  have hgo : fromStrGo (c :: cs) true 0 = some (parseDecGo (c :: cs) 0 % r) := by
    rw [fromStrGo, if_pos hcdig, if_neg (by intro h; exact hc0' h.2)]
    exact fromStrGo_digits cs (0 * 10 + (c.toNat - 48)) hdigs
  rw [hgo, ← hl, parseDec_eq_stripped]

theorem fromStrGo_nondigit : ∀ (l : List Char) (first : Bool) (acc : Nat),
    (∃ c ∈ l, c.isDigit = false) → fromStrGo l first acc = none := by
  intro l
  induction l with
  | nil =>
    rintro first acc ⟨c, hc, _⟩
    exact absurd hc (List.not_mem_nil c)
  | cons a l ih =>
    rintro first acc ⟨c, hc, hnd⟩
    rw [fromStrGo]
    split
    · rename_i ha
      split
      · rfl
      · rcases List.mem_cons.mp hc with rfl | hc'
        · rw [hnd] at ha
          exact absurd ha (by simp)
        · exact ih false _ ⟨c, hc', hnd⟩
    · rfl

theorem dropWhile_replicate_append (k : Nat) (l : List Char) :
    (List.replicate k '0' ++ l).dropWhile (· == '0') = l.dropWhile (· == '0') := by
  induction k with
  | zero => rfl
  | succ k ih =>
    rw [List.replicate_succ, List.cons_append, List.dropWhile_cons, if_pos (by decide)]
    exact ih

theorem handle_get_sqrt_congr (i1 i2 : List String) (h : operandOf i1 = operandOf i2) :
    handle_get_sqrt i1 = handle_get_sqrt i2 := by
  rw [handle_get_sqrt, handle_get_sqrt, h]

/-! ### Unfolding the handler at a parsed operand -/

theorem handle_get_sqrt_some (inputs : List String) (x : Nat)
    (hop : operandOf inputs = some x) :
    handle_get_sqrt inputs =
      (if (legendre x).is_qr then
        match frSqrt x with
        | none => none
        | some y => if y * y % r = x then some (toDecimal y) else none
      else
        match frSqrt x with
        | some _ => none
        | none => none) := by
  rw [handle_get_sqrt, hop]

theorem handle_get_sqrt_not_qr (inputs : List String) (x : Nat)
    (hop : operandOf inputs = some x) (h : (legendre x).is_qr = false) :
    handle_get_sqrt inputs = none := by
  rw [handle_get_sqrt_some inputs x hop, if_neg (by simp [h])]
  cases frSqrt x <;> rfl

theorem handle_get_sqrt_sound (inputs : List String) (s : String)
    (h : handle_get_sqrt inputs = some s) :
    ∃ x y, operandOf inputs = some x ∧ frSqrt x = some y ∧ y < r ∧ y * y % r = x ∧
      s = toDecimal y := by
  cases hop : operandOf inputs with
  | none =>
    rw [handle_get_sqrt, hop] at h
    exact absurd h (by simp)
  | some x =>
    rw [handle_get_sqrt_some inputs x hop] at h
    split at h
    · cases hfr : frSqrt x with
      | none =>
        rw [hfr] at h
        exact absurd h (by simp)
      | some y =>
        rw [hfr] at h
        have h3 : (if y * y % r = x then some (toDecimal y) else none) = some s := h
        split at h3
        · rename_i hyy
          injection h3 with h4
          exact ⟨x, y, rfl, hfr, frSqrt_lt x y hfr, hyy, h4.symm⟩
        · exact absurd h3 (by simp)
    · cases hfr : frSqrt x with
      | none =>
        rw [hfr] at h
        exact absurd h (by simp)
      | some y =>
        rw [hfr] at h
        exact absurd h (by simp)

/-! ### The claims -/

/-- C1: as literally stated the claim is false at the operand `0`
(reachable as the decimal string of `r` itself): `0` satisfies the
spec's `is_square`, yet the handler panics — `legendre(0)` is `Zero`,
so the code takes the non-residue branch whose
`assert_eq!(x.sqrt(), None)` fails because `sqrt(0) = Some(0)`. -/
theorem C1_counterexample :
    operandOf
        ["21888242871839275222246405745257275088548364400416034343698204186575808495617"]
        = some 0 ∧
      is_square 0 = true ∧
      handle_get_sqrt
        ["21888242871839275222246405745257275088548364400416034343698204186575808495617"]
        = none :=
  ⟨by decide, by decide, by decide⟩

/-- C1 (amended): for every operand string parsing to a NONZERO field
element `x` with `is_square x`, the `getSqrt` handler returns a decimal
string whose parsed value squares to `x` modulo `r`. -/
theorem C1_sqrt_correct (inputs : List String) (x : Nat)
    (hop : operandOf inputs = some x) (hx0 : 0 < x) (hsq : is_square x = true) :
    ∃ s, handle_get_sqrt inputs = some s ∧ parseDec s * parseDec s % r = x := by
  have hxr : x < r := operandOf_lt inputs x hop
  obtain ⟨hleg, heuler⟩ := legendre_eq_qr x hx0 hxr hsq
  obtain ⟨y, hfr, hylt, hyy⟩ := frSqrt_complete x hx0 hxr heuler
  refine ⟨toDecimal y, ?_, ?_⟩
  · rw [handle_get_sqrt_some inputs x hop, if_pos (by rw [hleg]; rfl)]
    have hfin : (if y * y % r = x then (some (toDecimal y) : Option String) else none)
        = some (toDecimal y) := if_pos hyy
    simp only [hfr]
    exact hfin
  · rw [parseDec_toDecimal y (lt_of_lt_of_le hylt (by decide : r ≤ 10 ^ 80))]
    exact hyy

/-- C1 witness: the operand `9` is a nonzero square and the handler
returns a decimal string squaring to `9`. -/
theorem C1_witness :
    ∃ s, handle_get_sqrt ["9"] = some s ∧ parseDec s * parseDec s % r = 9 :=
  C1_sqrt_correct ["9"] 9 (by decide) (by decide) (by decide)

/-- C2: every operand that parses to a quadratic non-residue
(`is_square x = false`) makes the handler fail with a panic (no result
string): the code enters the non-residue branch and, whatever `sqrt`
returns, panics. -/
theorem C2_nonresidue_rejected (inputs : List String) (x : Nat)
    (hop : operandOf inputs = some x) (hsq : is_square x = false) :
    handle_get_sqrt inputs = none := by
  apply handle_get_sqrt_not_qr inputs x hop
  rw [legendre_eq_qnr x hsq]
  rfl

/-- C2 witness: `5` is a non-residue mod `r` and the handler fails on it. -/
theorem C2_witness :
    operandOf ["5"] = some 5 ∧ is_square 5 = false ∧ handle_get_sqrt ["5"] = none :=
  ⟨by decide, by decide, C2_nonresidue_rejected ["5"] 5 (by decide) (by decide)⟩

/-- C3: as stated the claim is false — a decode failure of the inner
JSON does not produce `"Bad query"`; it hits
`.expect("Failed to parse JSON")`, i.e. a panic (no result). -/
theorem C3_counterexample :
    resolve_foreign_call (ParamShape.badJson "this is not json") ≠ some "Bad query" := by
  decide

/-- C3 (amended): only the params-not-a-string case yields the literal
`"Bad query"`; a failing inner decode panics via `expect`, and a decoded
EMPTY request array panics on the index `requests.0[0]`. -/
theorem C3_bad_query_behavior :
    resolve_foreign_call ParamShape.notAString = some "Bad query" ∧
      (∀ raw : String, resolve_foreign_call (ParamShape.badJson raw) = none) ∧
      resolve_foreign_call (ParamShape.decoded []) = none :=
  ⟨rfl, fun _ => rfl, rfl⟩

/-- C4: code bug relative to the spec.  An `inputs[0]` consisting
entirely of `'0'` characters strips to the empty string, which
`Fr::from_str` rejects, so the `unwrap` panics instead of treating the
operand as zero and returning `"0"`; evaluated here on `"0"` and on
`"0000"`. -/
theorem C4_all_zero_operand_panics :
    handle_get_sqrt ["0"] = none ∧ handle_get_sqrt ["0000"] = none :=
  ⟨by decide, by decide⟩

/-- C5: after stripping leading zeros, the operand is interpreted as a
base-10 decimal integer: on any all-digit operand that is not all
zeros, the parsed field element is its decimal value reduced mod `r`. -/
theorem C5_decimal_interpretation (w : String) (rest : List String)
    (hdig : ∀ c ∈ w.toList, c.isDigit = true)
    (hne : w.toList.dropWhile (· == '0') ≠ []) :
    operandOf (w :: rest) = some (parseDec w % r) :=
  operandOf_digits w rest hdig hne

/-- C5 witness: the operand string `"9"` parses to the field element `9`. -/
theorem C5_witness : operandOf ["9"] = some (parseDec "9" % r) :=
  C5_decimal_interpretation "9" [] (by decide) (by decide)

/-- C6: any decoded first request whose `function` is not `"getSqrt"`
gets the sentinel result `"oops"`, whatever its other fields and
whatever requests follow. -/
theorem C6_unknown_function (req : RequestData) (rest : List RequestData)
    (h : req.function ≠ "getSqrt") :
    resolve_foreign_call (ParamShape.decoded (req :: rest)) = some "oops" := by
  show (if req.function = "getSqrt" then handle_get_sqrt req.inputs
    else some (handle_unknown_function req)) = some "oops"
  rw [if_neg h]
  rfl

/-- C6 witness: a `getFoo` request yields `"oops"`. -/
theorem C6_witness :
    resolve_foreign_call (ParamShape.decoded
      [⟨1, "getFoo", ["5"], "/tmp/x", "demo"⟩]) = some "oops" :=
  C6_unknown_function ⟨1, "getFoo", ["5"], "/tmp/x", "demo"⟩ [] (by decide)

/-- C7: prepending any number of `'0'` characters to the first operand
leaves the handler's behavior (result string or failure) unchanged. -/
theorem C7_leading_zero_insensitive (w : String) (k : Nat) (rest : List String) :
    handle_get_sqrt (String.mk (List.replicate k '0' ++ w.toList) :: rest)
      = handle_get_sqrt (w :: rest) := by
  apply handle_get_sqrt_congr
  show fromStrFr (String.mk
      ((String.mk (List.replicate k '0' ++ w.toList)).toList.dropWhile (· == '0')))
    = fromStrFr (String.mk (w.toList.dropWhile (· == '0')))
  rw [toList_mk, dropWhile_replicate_append]

/-- C8: whenever the handler returns a string, it is the canonical
decimal representation of a value `y` in `[0, r)`: it round-trips
through decimal parsing, is `"0"` exactly when the value is zero, and
never starts with `'0'` otherwise. -/
theorem C8_canonical_output (inputs : List String) (s : String)
    (h : handle_get_sqrt inputs = some s) :
    ∃ y, y < r ∧ s = toDecimal y ∧ parseDec s = y ∧
      (y = 0 → s = "0") ∧ (1 ≤ y → s.toList.head? ≠ some '0') := by
  obtain ⟨x, y, hop, hfr, hylt, hyy, hs⟩ := handle_get_sqrt_sound inputs s h
  have hyr : y < 10 ^ 80 := lt_of_lt_of_le hylt (by decide)
  refine ⟨y, hylt, hs, ?_, ?_, ?_⟩
  · rw [hs]
    exact parseDec_toDecimal y hyr
  · intro hy0
    rw [hs, hy0]
    exact toDecimal_zero
  · intro hy1
    rw [hs]
    exact toDecimal_head y hy1 hyr

/-- C8 witness: on the operand `"1"` the handler outputs `"1"`, a
canonical decimal string. -/
theorem C8_witness :
    ∃ y, y < r ∧ "1" = toDecimal y ∧ parseDec "1" = y ∧
      (y = 0 → "1" = "0") ∧ (1 ≤ y → ("1" : String).toList.head? ≠ some '0') :=
  C8_canonical_output ["1"] "1" (by decide)

/-- C9: the dispatcher looks only at the first decoded request: two
decoded arrays with the same head get identical responses. -/
theorem C9_first_request_only (l1 l2 : List RequestData) (h : l1.head? = l2.head?) :
    resolve_foreign_call (ParamShape.decoded l1)
      = resolve_foreign_call (ParamShape.decoded l2) := by
  simp only [resolve_foreign_call]
  rw [h]

/-- C9 witness: appending a second request does not change the response. -/
theorem C9_witness :
    resolve_foreign_call (ParamShape.decoded [⟨1, "getFoo", [], "", ""⟩])
      = resolve_foreign_call (ParamShape.decoded
          [⟨1, "getFoo", [], "", ""⟩, ⟨2, "getSqrt", ["9"], "", ""⟩]) :=
  C9_first_request_only _ _ rfl

/-- C10: if the stripped operand still contains a non-decimal-digit
character (for instance hexadecimal letters), `Fr::from_str` fails and
the `unwrap` panics: the handler produces no result string. -/
theorem C10_nondigit_panics (w : String) (rest : List String)
    (h : ∃ c ∈ w.toList.dropWhile (· == '0'), c.isDigit = false) :
    handle_get_sqrt (w :: rest) = none := by
  have hop : operandOf (w :: rest) = none := by
    show fromStrFr (String.mk (w.toList.dropWhile (· == '0'))) = none
    obtain ⟨c, hc, hnd⟩ := h
    obtain ⟨c0, cs0, hl⟩ : ∃ c0 cs0, w.toList.dropWhile (· == '0') = c0 :: cs0 := by
      cases hcase : w.toList.dropWhile (· == '0') with
      | nil =>
        rw [hcase] at hc
        exact absurd hc (List.not_mem_nil c)
      | cons a b => exact ⟨a, b, rfl⟩
    rw [fromStrFr, toList_mk, hl, if_neg (by simp : (c0 :: cs0 : List Char) ≠ [])]
    by_cases h0 : (c0 :: cs0 : List Char) = ['0']
    · exfalso
      rw [hl, h0] at hc
      rcases List.mem_singleton.mp hc with rfl
      exact absurd hnd (by decide)
    · rw [if_neg h0]
      apply fromStrGo_nondigit
      exact ⟨c, hl ▸ hc, hnd⟩
  rw [handle_get_sqrt, hop]

/-- C10 witness: the hex-style operand `"0x09"` (stripping to `"x09"`)
makes the handler panic on the failed parse. -/
theorem C10_witness :
    (∃ c ∈ ("0x09" : String).toList.dropWhile (· == '0'), c.isDigit = false) ∧
      handle_get_sqrt ["0x09"] = none :=
  ⟨by decide, C10_nondigit_panics "0x09" [] (by decide)⟩

end Oracle

